import Mathlib

/-!
Verification development for the WordPress-Connector link-hygiene core
(`src/state_mangement.py`, `src/utils.py`).

Texts and identifiers are modelled as `List Char`; a file on disk is
`Option (List Char)` (`none` = absent).  Python's `str.splitlines()` is
modelled with its full set of line boundaries (`\n`, `\r`, `\r\n`, `\v`,
`\f`, `\x1c`, `\x1d`, `\x1e`, `\x85`, `\u2028`, `\u2029`).
Regular-expression passes from the source are embedded as deterministic
scanners, faithful to `re`'s leftmost, non-overlapping matching.
-/

/-- `leadsWith p l` is true iff the list `p` occurs at the very start of `l`
(Python `startswith` / a regex literal match at the current position). -/
def leadsWith : List Char → List Char → Bool
  | [], _ => true
  | _ :: _, [] => false
  | a :: as, b :: bs => a = b && leadsWith as bs

/-- `trailsWith s l` is true iff `l` ends with `s` (Python `endswith`). -/
def trailsWith (s l : List Char) : Bool :=
  leadsWith s.reverse l.reverse

/-- `occursIn u l` is true iff `u` occurs verbatim as a contiguous substring
of `l`. -/
def occursIn (u : List Char) : List Char → Bool
  | [] => leadsWith u []
  | c :: rest => leadsWith u (c :: rest) || occursIn u rest

/-- The characters on which Python `str.splitlines()` splits: `\n`, `\r`
(with `\r\n` as a single boundary), `\v`, `\f`, the ASCII separators
`\x1c`-`\x1e`, `\x85`, and the Unicode line/paragraph separators. -/
def isLineBoundary (c : Char) : Bool :=
  c = '\n' || c = '\r' || c = '\x0b' || c = '\x0c' || c = '\x1c' ||
    c = '\x1d' || c = '\x1e' || c = '\x85' || c = '\u2028' || c = '\u2029'

/-- A text free of every line-boundary character (a well-formed single
identifier: `splitlines` keeps it as one line). -/
def noLineBreak (l : List Char) : Prop :=
  ∀ c ∈ l, isLineBoundary c = false

instance (l : List Char) : Decidable (noLineBreak l) := by
  unfold noLineBreak; infer_instance

/-- Prepend a character to the first line of a line list (the body of the
non-boundary step of `splitlines`). -/
def consHead (c : Char) : List (List Char) → List (List Char)
  | [] => [[c]]
  | h :: t => (c :: h) :: t

/-- Python `str.splitlines()`: split at every line-boundary character,
consuming it (`\r\n` counts as one boundary); a single trailing boundary
produces no trailing empty line. -/
def splitlines : List Char → List (List Char)
  | [] => []
  | '\r' :: '\n' :: rest => [] :: splitlines rest
  | c :: rest =>
    if isLineBoundary c = true then [] :: splitlines rest
    else consHead c (splitlines rest)

/-- Content that may legally sit in a checkpoint file between appends:
empty, or ending in a full `\n` boundary. -/
def newlineTerminated (c : List Char) : Prop :=
  c = [] ∨ c.getLast? = some '\n'

instance (c : List Char) : Decidable (newlineTerminated c) := by
  unfold newlineTerminated; infer_instance

/-- `read_checkpoint` (src/state_mangement.py lines 20-24): absent file gives
the empty collection, otherwise the file's `splitlines`.  The Python function
wraps the lines in `set(...)`; we return the line list, and claims about set
semantics go through `List.toFinset`. -/
def read_checkpoint : Option (List Char) → List (List Char)
  | none => []
  | some c => splitlines c

/-- `update_checkpoint` (src/state_mangement.py lines 42-43): opens in append
mode (creating the file when absent) and writes `file_name + "\n"`. -/
def update_checkpoint (s : Option (List Char)) (file_name : List Char) :
    Option (List Char) :=
  some ((s.getD []) ++ file_name ++ ['\n'])

/-- Well-formed ledger state: absent, or newline-terminated content.  Every
state reachable by `update_checkpoint` writes is of this shape. -/
def wfLedger : Option (List Char) → Prop
  | none => True
  | some c => newlineTerminated c

instance (s : Option (List Char)) : Decidable (wfLedger s) := by
  cases s <;> (unfold wfLedger; infer_instance)

theorem leadsWith_nil_iff (u : List Char) : leadsWith u [] = true ↔ u = [] := by
  cases u <;> simp [leadsWith]

set_option maxHeartbeats 2000000 in
theorem splitlines_ne_nil (l : List Char) (h : l ≠ []) : splitlines l ≠ [] := by
  induction l using splitlines.induct with
  | case1 => exact absurd rfl h
  | case2 rest ih => simp [splitlines]
  | case3 c rest hne hb ih =>
    rw [splitlines]
    · rw [if_pos hb]
      simp
    · exact hne
  | case4 c rest hne hb ih =>
    rw [splitlines]
    · rw [if_neg hb]
      cases hq : splitlines rest <;> simp [consHead]
    · exact hne

theorem splitlines_terminated_single (f : List Char) (h : noLineBreak f) :
    splitlines (f ++ ['\n']) = [f] := by
  induction f with
  | nil => rfl
  | cons x rest ih =>
    have hx : isLineBoundary x = false := h x (List.mem_cons_self x rest)
    have hxr : ∀ r : List Char, x = '\r' → rest ++ ['\n'] = '\n' :: r → False := by
      intro r hxeq _
      rw [hxeq] at hx
      exact absurd hx (by decide)
    have ih2 := ih (fun c hc => h c (List.mem_cons_of_mem x hc))
    rw [List.cons_append, splitlines]
    · rw [if_neg (by rw [hx]; exact Bool.false_ne_true), ih2]
      rfl
    · exact hxr

theorem newlineTerminated_tail (x : Char) (l : List Char)
    (h : newlineTerminated (x :: l)) (hne : l ≠ []) : newlineTerminated l := by
  rcases h with h | h
  · simp at h
  · cases l with
    | nil => exact absurd rfl hne
    | cons z zs =>
      rw [List.getLast?_cons_cons] at h
      exact Or.inr h

theorem splitlines_append (c d : List Char) (h : newlineTerminated c) :
    splitlines (c ++ d) = splitlines c ++ splitlines d := by
  induction c using splitlines.induct with
  | case1 => simp [splitlines]
  | case2 rest ih =>
    rcases eq_or_ne rest [] with hrest | hrest
    · subst hrest; simp [splitlines]
    · have hwf : newlineTerminated rest := by
        refine newlineTerminated_tail '\n' rest ?_ hrest
        exact newlineTerminated_tail '\r' ('\n' :: rest) h (by simp)
      rw [List.cons_append, List.cons_append, splitlines, splitlines, ih hwf,
          List.cons_append]
  | case3 c0 rest hne hb ih =>
    rcases eq_or_ne rest [] with hrest | hrest
    · subst hrest
      have hc0 : c0 = '\n' := by
        rcases h with h | h
        · simp at h
        · simpa using h
      subst hc0
      have hL : splitlines ('\n' :: ([] ++ d)) = [] :: splitlines d := by
        rw [splitlines]
        · rw [if_pos hb, List.nil_append]
        · intro r hc _
          exact absurd hc (by decide)
      rw [List.cons_append, hL]
      rfl
    · have hwf : newlineTerminated rest := newlineTerminated_tail c0 rest h hrest
      have hhead : ∀ r : List Char, c0 = '\x0d' → rest ++ d = '\n' :: r → False := by
        intro r hc0 hr
        cases rest with
        | nil => exact hrest rfl
        | cons z zs =>
          rw [List.cons_append] at hr
          have hz : z = '\n' := List.head_eq_of_cons_eq hr
          exact hne zs hc0 (by rw [hz])
      have hL : splitlines (c0 :: (rest ++ d)) = [] :: splitlines (rest ++ d) := by
        rw [splitlines]
        · rw [if_pos hb]
        · exact hhead
      have hR : splitlines (c0 :: rest) = [] :: splitlines rest := by
        rw [splitlines]
        · rw [if_pos hb]
        · exact hne
      rw [List.cons_append, hL, hR, ih hwf, List.cons_append]
  | case4 c0 rest hne hb ih =>
    have hrest : rest ≠ [] := by
      intro h0
      subst h0
      rcases h with h | h
      · simp at h
      · simp at h
        rw [h] at hb
        exact absurd (by decide) hb
    have hwf : newlineTerminated rest := newlineTerminated_tail c0 rest h hrest
    have hhead : ∀ r : List Char, c0 = '\x0d' → rest ++ d = '\n' :: r → False := by
      intro r hc0 hr
      cases rest with
      | nil => exact hrest rfl
      | cons z zs =>
        rw [List.cons_append] at hr
        have hz : z = '\n' := List.head_eq_of_cons_eq hr
        exact hne zs hc0 (by rw [hz])
    obtain ⟨hd, tl, heq⟩ : ∃ hd tl, splitlines rest = hd :: tl := by
      cases hq : splitlines rest with
      | nil => exact absurd hq (splitlines_ne_nil rest hrest)
      | cons a b => exact ⟨a, b, rfl⟩
    have hsplit : splitlines (rest ++ d) = hd :: (tl ++ splitlines d) := by
      rw [ih hwf, heq]
      simp
    have hL : splitlines (c0 :: (rest ++ d)) = (c0 :: hd) :: (tl ++ splitlines d) := by
      rw [splitlines]
      · rw [if_neg hb, hsplit]
        rfl
      · exact hhead
    have hR : splitlines (c0 :: rest) = (c0 :: hd) :: tl := by
      rw [splitlines]
      · rw [if_neg hb, heq]
        rfl
      · exact hne
    rw [List.cons_append, hL, hR]
    simp

theorem wfLedger_update (s : Option (List Char)) (f : List Char) :
    wfLedger (update_checkpoint s f) := by
  show newlineTerminated _
  right
  rw [List.getLast?_concat]

theorem read_update (s : Option (List Char)) (f : List Char)
    (hs : wfLedger s) (hf : noLineBreak f) :
    read_checkpoint (update_checkpoint s f) = read_checkpoint s ++ [f] := by
  cases s with
  | none =>
    show splitlines ([] ++ f ++ ['\n']) = [] ++ [f]
    rw [List.nil_append, List.nil_append, splitlines_terminated_single f hf]
  | some c =>
    show splitlines (c ++ f ++ ['\n']) = splitlines c ++ [f]
    rw [List.append_assoc, splitlines_append c (f ++ ['\n']) hs,
        splitlines_terminated_single f hf]

theorem read_update_mono (s : Option (List Char)) (f x : List Char)
    (hs : wfLedger s) (hx : x ∈ read_checkpoint s) :
    x ∈ read_checkpoint (update_checkpoint s f) := by
  cases s with
  | none => exact absurd hx (by simp [read_checkpoint])
  | some c =>
    show x ∈ splitlines (c ++ f ++ ['\n'])
    rw [List.append_assoc, splitlines_append c (f ++ ['\n']) hs]
    exact List.mem_append_left _ hx

theorem read_foldl (ops : List (List Char)) (s : Option (List Char))
    (hs : wfLedger s) (hops : ∀ x ∈ ops, noLineBreak x) :
    read_checkpoint (ops.foldl update_checkpoint s) = read_checkpoint s ++ ops := by
  induction ops generalizing s with
  | nil => simp
  | cons o os ih =>
    rw [List.foldl_cons,
        ih (update_checkpoint s o) (wfLedger_update s o)
          (fun x hx => hops x (List.mem_cons_of_mem o hx)),
        read_update s o hs (hops o (List.mem_cons_self o os)),
        List.append_assoc, List.singleton_append]

/-- C1: after `update_checkpoint` appends an identifier, every load of the
ledger contains it; membership survives further appends; and recording
`a.md` and `b.md` (each any positive number of times, in any order) into an
initially absent ledger makes `read_checkpoint` return exactly the set
`{a.md, b.md}`. -/
theorem checkpoint_record_then_load
    (s : Option (List Char)) (id : List Char)
    (hs : wfLedger s) (hid : noLineBreak id) :
    id ∈ read_checkpoint (update_checkpoint s id) ∧
    (∀ x f, x ∈ read_checkpoint s → x ∈ read_checkpoint (update_checkpoint s f)) ∧
    (∀ ops : List (List Char),
      (∀ x ∈ ops, x = "a.md".data ∨ x = "b.md".data) →
      "a.md".data ∈ ops → "b.md".data ∈ ops →
      (read_checkpoint (ops.foldl update_checkpoint none)).toFinset =
        ({"a.md".data, "b.md".data} : Finset (List Char))) := by
  refine ⟨?_, ?_, ?_⟩
  · rw [read_update s id hs hid]
    exact List.mem_append_right _ (List.mem_singleton_self id)
  · intro x f hx
    exact read_update_mono s f x hs hx
  · intro ops hab ha hb
    have hnl : ∀ x ∈ ops, noLineBreak x := by
      intro x hx
      rcases hab x hx with h | h <;> (subst h; decide)
    rw [read_foldl ops none trivial hnl]
    show ops.toFinset = _
    ext x
    simp only [List.mem_toFinset, Finset.mem_insert, Finset.mem_singleton]
    constructor
    · intro hx
      exact hab x hx
    · intro hx
      rcases hx with h | h
      · exact h ▸ ha
      · exact h ▸ hb

theorem checkpoint_record_then_load_witness :
    "x.md".data ∈ read_checkpoint (update_checkpoint none "x.md".data) ∧
    (read_checkpoint
        (["a.md".data, "b.md".data, "a.md".data].foldl update_checkpoint
          none)).toFinset = ({"a.md".data, "b.md".data} : Finset (List Char)) :=
  ⟨(checkpoint_record_then_load none "x.md".data trivial (by decide)).1,
   (checkpoint_record_then_load none "x.md".data trivial (by decide)).2.2
     ["a.md".data, "b.md".data, "a.md".data] (by decide) (by decide) (by decide)⟩

/-- C8 counterexample: the ledger content `"a.md\n\n"` ends in blank lines,
yet `read_checkpoint` returns a set containing the spurious empty
identifier — `splitlines` only absorbs a single trailing newline. -/
theorem read_checkpoint_blank_lines_counterexample :
    ([] : List Char) ∈ (read_checkpoint (some ("a.md\n\n".data))).toFinset := by
  decide

/-- C8 amended: an absent ledger loads as the empty set, and a ledger holding
one identifier per line with a single trailing newline (the only shape
`update_checkpoint` ever writes) loads as exactly those identifiers — in
particular no spurious empty identifier when the identifiers are nonempty.
Content with additional blank lines, however, does yield empty entries
(see the counterexample). -/
theorem read_checkpoint_amended :
    read_checkpoint none = [] ∧
    (∀ ids : List (List Char), (∀ x ∈ ids, noLineBreak x) →
      read_checkpoint (ids.foldl update_checkpoint none) = ids) ∧
    (∀ ids : List (List Char), (∀ x ∈ ids, noLineBreak x ∧ x ≠ []) →
      [] ∉ read_checkpoint (ids.foldl update_checkpoint none)) := by
  refine ⟨rfl, ?_, ?_⟩
  · intro ids hnl
    rw [read_foldl ids none trivial hnl]
    rfl
  · intro ids hids hmem
    rw [read_foldl ids none trivial (fun x hx => (hids x hx).1)] at hmem
    exact (hids [] hmem).2 rfl

theorem read_checkpoint_amended_witness :
    read_checkpoint (["a.md".data, "b.md".data].foldl update_checkpoint none) =
      ["a.md".data, "b.md".data] ∧
    [] ∉ read_checkpoint (["a.md".data, "b.md".data].foldl update_checkpoint none) :=
  ⟨read_checkpoint_amended.2.1 ["a.md".data, "b.md".data] (by decide),
   read_checkpoint_amended.2.2 ["a.md".data, "b.md".data] (by decide)⟩

/-- Per-file observable actions of the two mutating walkers, in program
order. -/
inductive WalkEvent where
  | readF : List Char → WalkEvent
  | checkpointE : List Char → WalkEvent
  | mutateE : List Char → WalkEvent
  | reportE : List Char → WalkEvent
deriving DecidableEq

/-- Per-file step sequence of `check_and_remove_links`
(src/utils.py lines 269-277): read the file, append the checkpoint, and only
then — when any URL failed — mutate the file and append to the CSV report. -/
def check_and_remove_links_fileTrace (hasFailing : Bool) (f : List Char) :
    List WalkEvent :=
  [WalkEvent.readF f, WalkEvent.checkpointE f] ++
    (if hasFailing then [WalkEvent.mutateE f, WalkEvent.reportE f] else [])

/-- Per-file step sequence of `repairing_empty_links`
(src/utils.py lines 352-358): read, write the repaired content back, and
append the checkpoint after the write. -/
def repairing_empty_links_fileTrace (f : List Char) : List WalkEvent :=
  [WalkEvent.readF f, WalkEvent.mutateE f, WalkEvent.checkpointE f]

/-- C2: in `check_and_remove_links`, whenever a file's content mutation
occurs, the checkpoint append for that file occurs strictly earlier in its
per-file step sequence; in the other mutation path,
`repairing_empty_links`, the order is reversed — the write precedes the
checkpoint append. -/
theorem checkpoint_precedes_mutation (f : List Char) (b : Bool)
    (hm : WalkEvent.mutateE f ∈ check_and_remove_links_fileTrace b f) :
    (∃ i j : Nat, i < j ∧
      (check_and_remove_links_fileTrace b f)[i]? = some (WalkEvent.checkpointE f) ∧
      (check_and_remove_links_fileTrace b f)[j]? = some (WalkEvent.mutateE f)) ∧
    (∃ i j : Nat, i < j ∧
      (repairing_empty_links_fileTrace f)[i]? = some (WalkEvent.mutateE f) ∧
      (repairing_empty_links_fileTrace f)[j]? = some (WalkEvent.checkpointE f)) := by
  refine ⟨?_, ⟨1, 2, by omega, rfl, rfl⟩⟩
  cases b with
  | false => simp [check_and_remove_links_fileTrace] at hm
  | true => exact ⟨1, 2, by omega, rfl, rfl⟩

theorem checkpoint_precedes_mutation_witness :
    ∃ i j : Nat, i < j ∧
      (check_and_remove_links_fileTrace true "a.md".data)[i]? =
        some (WalkEvent.checkpointE "a.md".data) ∧
      (check_and_remove_links_fileTrace true "a.md".data)[j]? =
        some (WalkEvent.mutateE "a.md".data) :=
  (checkpoint_precedes_mutation "a.md".data true (by decide)).1

/-- Outcome of one `requests.head(url, allow_redirects=True, timeout=5)`
call, abstracting the network: a response with its final status code, a
`RequestException` that still carries a response, or a `RequestException`
with no response object obtainable. -/
inductive HeadOutcome where
  | resp : Nat → HeadOutcome
  | exnWithResp : Nat → HeadOutcome
  | exnNoResp : HeadOutcome
deriving DecidableEq

/-- `check_urls` (src/utils.py lines 91-111), with the network modelled by
the oracle `head`: per URL, a 200 response contributes nothing; any other
status is recorded with that status; a `RequestException` is recorded with
the response's status when a response is attached, else with `none`. -/
def check_urls (head : List Char → HeadOutcome) :
    List (List Char) → List (List Char × Option Nat)
  | [] => []
  | u :: rest =>
    (match head u with
     | HeadOutcome.resp s => if s ≠ 200 then [(u, some s)] else []
     | HeadOutcome.exnWithResp s => [(u, some s)]
     | HeadOutcome.exnNoResp => [(u, none)]) ++ check_urls head rest

theorem check_urls_excluded (head : List Char → HeadOutcome)
    (urls : List (List Char)) (u : List Char)
    (h200 : head u = HeadOutcome.resp 200) :
    ∀ s, (u, s) ∉ check_urls head urls := by
  induction urls with
  | nil =>
    intro s hmem
    simp [check_urls] at hmem
  | cons v rest ih =>
    intro s hmem
    rw [check_urls] at hmem
    rcases List.mem_append.1 hmem with hl | hr
    · rcases eq_or_ne v u with hv | hv
      · rw [hv, h200] at hl
        simp at hl
      · cases hvo : head v with
        | resp s0 =>
          rw [hvo] at hl
          by_cases h0 : s0 ≠ 200
          · simp [h0] at hl
            exact hv hl.1.symm
          · simp [h0] at hl
        | exnWithResp s0 =>
          rw [hvo] at hl
          simp at hl
          exact hv hl.1.symm
        | exnNoResp =>
          rw [hvo] at hl
          simp at hl
          exact hv hl.1.symm
    · exact ih s hr

/-- C4: `check_urls` classifies every URL of its input list as the claim
states: a 200 response is excluded from the failing list, any other status
is included with that status, an exception is included with the attached
response's status when one is obtainable, and with status absent
otherwise. -/
theorem check_urls_classification (head : List Char → HeadOutcome)
    (urls : List (List Char)) (u : List Char) (hu : u ∈ urls) :
    (head u = HeadOutcome.resp 200 →
      ∀ s, (u, s) ∉ check_urls head urls) ∧
    (∀ s, head u = HeadOutcome.resp s → s ≠ 200 →
      (u, some s) ∈ check_urls head urls) ∧
    (∀ s, head u = HeadOutcome.exnWithResp s →
      (u, some s) ∈ check_urls head urls) ∧
    (head u = HeadOutcome.exnNoResp →
      (u, none) ∈ check_urls head urls) := by
  induction urls with
  | nil => exact absurd hu (List.not_mem_nil u)
  | cons v rest ih =>
    refine ⟨fun h200 => check_urls_excluded head (v :: rest) u h200, ?_, ?_, ?_⟩
    · intro s hs hs200
      rw [check_urls]
      rcases List.mem_cons.1 hu with hv | hu2
      · subst hv
        rw [hs]
        simp [hs200]
      · exact List.mem_append_right _ ((ih hu2).2.1 s hs hs200)
    · intro s hs
      rw [check_urls]
      rcases List.mem_cons.1 hu with hv | hu2
      · subst hv
        rw [hs]
        simp
      · exact List.mem_append_right _ ((ih hu2).2.2.1 s hs)
    · intro hs
      rw [check_urls]
      rcases List.mem_cons.1 hu with hv | hu2
      · subst hv
        rw [hs]
        simp
      · exact List.mem_append_right _ ((ih hu2).2.2.2 hs)

/-- Concrete network oracle for the C4 witness: one live URL, one 404, one
exception carrying a 503 response, one bare timeout. -/
def witnessHead (u : List Char) : HeadOutcome :=
  if u = "http://live".data then HeadOutcome.resp 200
  else if u = "http://dead".data then HeadOutcome.resp 404
  else if u = "http://half".data then HeadOutcome.exnWithResp 503
  else HeadOutcome.exnNoResp

def witnessUrls : List (List Char) :=
  ["http://live".data, "http://dead".data, "http://half".data, "http://gone".data]

theorem check_urls_classification_witness :
    (∀ s, ("http://live".data, s) ∉ check_urls witnessHead witnessUrls) ∧
    ("http://dead".data, some 404) ∈ check_urls witnessHead witnessUrls ∧
    ("http://half".data, some 503) ∈ check_urls witnessHead witnessUrls ∧
    ("http://gone".data, none) ∈ check_urls witnessHead witnessUrls :=
  ⟨(check_urls_classification witnessHead witnessUrls "http://live".data
      (by decide)).1 (by decide),
   (check_urls_classification witnessHead witnessUrls "http://dead".data
      (by decide)).2.1 404 (by decide) (by decide),
   (check_urls_classification witnessHead witnessUrls "http://half".data
      (by decide)).2.2.1 503 (by decide),
   (check_urls_classification witnessHead witnessUrls "http://gone".data
      (by decide)).2.2.2 (by decide)⟩

theorem length_dropWhileLe (p : Char → Bool) (l : List Char) :
    (l.dropWhile p).length ≤ l.length := by
  induction l with
  | nil => simp
  | cons x xs ih =>
    rw [List.dropWhile_cons]
    split
    · exact le_trans ih (Nat.le_succ _)
    · exact le_refl _

/-- One attempt of the regex `\[([^\]]+)\]\(\s*\)` at the current position
(src/utils.py line 142 / line 339): `[`, one or more non-`]` characters
(captured), `]`, `(`, optional whitespace, `)`.  Returns the captured link
text and the remainder after the match.  The pattern is deterministic: the
greedy `[^\]]+` and `\s*` admit no successful backtracking. -/
def matchEmptyLink : List Char → Option (List Char × List Char)
  | '[' :: rest =>
    let t := rest.takeWhile (fun c => c ≠ ']')
    if t = [] then none
    else
      match rest.dropWhile (fun c => c ≠ ']') with
      | ']' :: '(' :: r2 =>
        match r2.dropWhile Char.isWhitespace with
        | ')' :: after => some (t, after)
        | _ => none
      | _ => none
  | _ => none

theorem matchEmptyLink_shrinks (l t after : List Char)
    (h : matchEmptyLink l = some (t, after)) : after.length < l.length := by
  cases l with
  | nil => simp [matchEmptyLink] at h
  | cons c rest =>
    by_cases hc : c = '['
    · subst hc
      simp only [matchEmptyLink] at h
      split at h
      · exact absurd h (by simp)
      · split at h
        · rename_i r2 heqdrop
          split at h
          · rename_i after0 heqws
            simp only [Option.some.injEq, Prod.mk.injEq] at h
            obtain ⟨ht, hafter⟩ := h
            rw [← hafter]
            have h1 : (']' :: '(' :: r2).length ≤ rest.length := by
              rw [← heqdrop]; exact length_dropWhileLe _ rest
            have h2 : (')' :: after0).length ≤ r2.length := by
              rw [← heqws]; exact length_dropWhileLe _ r2
            simp at h1 h2
            simp [List.length_cons]
            omega
          · exact absurd h (by simp)
        · exact absurd h (by simp)
    · rw [matchEmptyLink.eq_def] at h
      split at h
      · rename_i rest' heq
        exact absurd (List.head_eq_of_cons_eq heq) hc
      · exact absurd h (by simp)

/-- `re.sub(link_pattern, r'\1', content)` for the empty-link pattern: scan
left to right; at a match emit the captured text and continue after the
match, otherwise emit the character and advance.  Structural recursion on a
fuel bounded by the text length (every step consumes at least one
character, so `fuel = length` is always enough). -/
def subEmptyLinksF : Nat → List Char → List Char
  | 0, l => l
  | fuel + 1, l =>
    match matchEmptyLink l with
    | some (t, after) => t ++ subEmptyLinksF fuel after
    | none =>
      match l with
      | [] => []
      | c :: rest => c :: subEmptyLinksF fuel rest

/-- The single empty-link collapse pass applied by
`remove_failing_links_from_file` (src/utils.py lines 142-143) and by
`repairing_empty_links` (src/utils.py lines 339, 354). -/
def subEmptyLinks (l : List Char) : List Char :=
  subEmptyLinksF l.length l

/-- True iff the empty-link pattern matches somewhere in the text. -/
def hasEmptyLink : List Char → Bool
  | [] => false
  | c :: rest => (matchEmptyLink (c :: rest)).isSome || hasEmptyLink rest

theorem subEmptyLinksF_no_match (fuel : Nat) (l : List Char)
    (h : hasEmptyLink l = false) : subEmptyLinksF fuel l = l := by
  induction fuel generalizing l with
  | zero => rfl
  | succ n ih =>
    cases l with
    | nil => rfl
    | cons c rest =>
      rw [hasEmptyLink, Bool.or_eq_false_iff] at h
      have hm : matchEmptyLink (c :: rest) = none :=
        Option.not_isSome_iff_eq_none.1 (by rw [h.1]; exact Bool.false_ne_true)
      rw [subEmptyLinksF, hm]
      rw [ih rest h.2]

/-- `re.sub(re.escape(url), '', content)` (src/utils.py lines 140-141):
delete the leftmost, non-overlapping verbatim occurrences of `u` in a single
left-to-right scan (an escaped pattern matches only literally; replacing by
the empty string deletes the match).  Fuel-bounded structural recursion;
`fuel = length` always suffices. -/
def removeAllF (u : List Char) : Nat → List Char → List Char
  | 0, l => l
  | _ + 1, [] => []
  | fuel + 1, x :: rest =>
    if u ≠ [] ∧ leadsWith u (x :: rest) = true then
      removeAllF u fuel ((x :: rest).drop u.length)
    else
      x :: removeAllF u fuel rest

/-- Single-pass verbatim removal of `u` from `l`. -/
def removeAll (u l : List Char) : List Char :=
  removeAllF u l.length l

/-- The content transform of `remove_failing_links_from_file`
(src/utils.py lines 138-143): for each failing URL in list order, delete its
verbatim occurrences, then collapse empty Markdown links; the final content
is written back (file I/O abstracted away). -/
def remove_failing_links_from_file
    (failing_urls : List (List Char)) (content : List Char) : List Char :=
  failing_urls.foldl (fun c u => subEmptyLinks (removeAll u c)) content

theorem leadsWith_length_le (u l : List Char) (h : leadsWith u l = true) :
    u.length ≤ l.length := by
  induction u generalizing l with
  | nil => simp
  | cons a as ih =>
    cases l with
    | nil => simp [leadsWith] at h
    | cons b bs =>
      rw [leadsWith, Bool.and_eq_true] at h
      exact Nat.succ_le_succ (ih bs h.2)

theorem removeAllF_length_le (u : List Char) (fuel : Nat) (l : List Char) :
    (removeAllF u fuel l).length ≤ l.length := by
  induction fuel generalizing l with
  | zero => exact le_refl _
  | succ n ih =>
    cases l with
    | nil => simp [removeAllF]
    | cons x rest =>
      rw [removeAllF]
      split
      · exact le_trans (ih _) (by rw [List.length_drop]; omega)
      · rw [List.length_cons]
        exact Nat.succ_le_succ (ih rest)

theorem removeAllF_no_occurrence (u : List Char) (fuel : Nat) (l : List Char)
    (h : occursIn u l = false) : removeAllF u fuel l = l := by
  induction fuel generalizing l with
  | zero => rfl
  | succ n ih =>
    cases l with
    | nil => rfl
    | cons x rest =>
      rw [occursIn, Bool.or_eq_false_iff] at h
      rw [removeAllF]
      split
      · rename_i hcond
        exact absurd hcond.2 (by rw [h.1]; exact Bool.false_ne_true)
      · rw [ih rest h.2]

theorem removeAllF_removes (u : List Char) (fuel : Nat) (l : List Char)
    (hu : u ≠ []) (hocc : occursIn u l = true) (hfuel : l.length ≤ fuel) :
    (removeAllF u fuel l).length + u.length ≤ l.length := by
  induction fuel generalizing l with
  | zero =>
    have : l = [] := List.length_eq_zero.1 (Nat.le_zero.1 hfuel)
    subst this
    rw [occursIn, leadsWith_nil_iff] at hocc
    exact absurd hocc hu
  | succ n ih =>
    cases l with
    | nil =>
      rw [occursIn, leadsWith_nil_iff] at hocc
      exact absurd hocc hu
    | cons x rest =>
      rw [removeAllF]
      split
      · rename_i hcond
        have hul : u.length ≤ (x :: rest).length :=
          leadsWith_length_le u (x :: rest) hcond.2
        have hrem := removeAllF_length_le u n ((x :: rest).drop u.length)
        rw [List.length_drop] at hrem
        omega
      · rename_i hcond
        rw [occursIn, Bool.or_eq_true] at hocc
        have hlw : leadsWith u (x :: rest) = false := by
          by_contra hb
          exact hcond ⟨hu, Bool.of_not_eq_false hb⟩
        have hocc2 : occursIn u rest = true := by
          rcases hocc with ho | ho
          · rw [hlw] at ho
            exact absurd ho Bool.false_ne_true
          · exact ho
        have := ih rest hocc2 (by simp at hfuel; omega)
        simp only [List.length_cons]
        omega

/-- C5 counterexample: deleting the non-overlapping occurrences of a failing
URL can splice the surrounding remnants into a fresh verbatim occurrence of
that same URL, which survives the transform: with failing URL `http://x`,
the content `htthttp://xp://x` is rewritten to exactly `http://x`.  So the
transform does not remove every verbatim occurrence of each failing URL
from the final text. -/
theorem remove_failing_links_leaves_occurrence :
    occursIn "http://x".data
      (remove_failing_links_from_file ["http://x".data]
        "htthttp://xp://x".data) = true := by
  decide

/-- C5 amended: for each failing URL in list order the transform performs a
single left-to-right pass deleting the non-overlapping verbatim occurrences
present at that point (link-unaware), then collapses `[text]()` links left
with an empty target; the claim's concrete example holds (`See
[here](https://dead.example/a) for more.` becomes `See here for more.`),
a pass leaves text without any occurrence of the URL unchanged, and
whenever the URL occurs the pass deletes at least one full occurrence.
What the original claim must give up: remnants of deleted occurrences can
join into a new occurrence of the URL, which survives the pass. -/
theorem remove_failing_links_amended :
    remove_failing_links_from_file ["https://dead.example/a".data]
        "See [here](https://dead.example/a) for more.".data =
      "See here for more.".data ∧
    (∀ u c, occursIn u c = false → removeAll u c = c) ∧
    (∀ u c, u ≠ [] → occursIn u c = true →
      (removeAll u c).length + u.length ≤ c.length) := by
  refine ⟨by decide, ?_, ?_⟩
  · intro u c h
    exact removeAllF_no_occurrence u c.length c h
  · intro u c hu hocc
    exact removeAllF_removes u c.length c hu hocc (le_refl _)

theorem remove_failing_links_amended_witness :
    removeAll "http://a".data "no links here".data = "no links here".data ∧
    (removeAll "http://a".data "see http://a end".data).length +
        "http://a".data.length ≤ "see http://a end".data.length :=
  ⟨remove_failing_links_amended.2.1 "http://a".data "no links here".data
      (by decide),
   remove_failing_links_amended.2.2 "http://a".data "see http://a end".data
      (by decide) (by decide)⟩

/-- C6 counterexample: the empty-link repair is not idempotent.  On
`[[x]()]()` one pass produces `[x]()` (the collapse splices the inner
bracket into a new empty link) and a second pass produces `x`. -/
theorem repairing_empty_links_not_idempotent :
    subEmptyLinks (subEmptyLinks "[[x]()]()".data) ≠
      subEmptyLinks "[[x]()]()".data := by
  decide

/-- C6 amended: the repair is idempotent on every text whose single repair
pass leaves no empty-link pattern behind — in particular whenever no link
text itself contains bracket syntax.  In general a pass can splice remnants
into a new `[text]()` occurrence (see the counterexample), and repeated
passes, not one, are then needed. -/
theorem repairing_empty_links_amended (c : List Char)
    (h : hasEmptyLink (subEmptyLinks c) = false) :
    subEmptyLinks (subEmptyLinks c) = subEmptyLinks c :=
  subEmptyLinksF_no_match (subEmptyLinks c).length (subEmptyLinks c) h

theorem repairing_empty_links_amended_witness :
    subEmptyLinks (subEmptyLinks "See [here]() for more.".data) =
      subEmptyLinks "See [here]() for more.".data :=
  repairing_empty_links_amended "See [here]() for more.".data (by decide)

/-- Characters the extraction pattern `[^\s,;)]+` refuses: whitespace,
comma, semicolon, closing parenthesis. -/
def urlStop (c : Char) : Bool :=
  c.isWhitespace || c = ',' || c = ';' || c = ')'

/-- The two denylisted names of the negative lookahead
`(?!example\.example2\.com|example3\.org)` (src/utils.py line 67). -/
def deny1 : List Char := "example.example2.com".data

def deny2 : List Char := "example3.org".data

def httpScheme : List Char := "http://".data

def httpsScheme : List Char := "https://".data

/-- Continuation of a URL match after the scheme: the negative lookahead
rejects a position where the text right after `://` starts with a
denylisted name; otherwise the greedy body `[^\s,;)]+` must be nonempty. -/
def urlTail (scheme r : List Char) : Option (List Char × List Char) :=
  if leadsWith deny1 r || leadsWith deny2 r then none
  else if r.takeWhile (fun c => !urlStop c) = [] then none
  else some (scheme ++ r.takeWhile (fun c => !urlStop c),
             r.drop (r.takeWhile (fun c => !urlStop c)).length)

/-- One attempt of `https?://(?!example\.example2\.com|example3\.org)[^\s,;)]+`
at the current position: the greedy `s?` admits no successful backtracking,
so the scheme is `https://` when present, else `http://`, else no match. -/
def matchUrlAt (l : List Char) : Option (List Char × List Char) :=
  if leadsWith httpsScheme l = true then urlTail httpsScheme (l.drop 8)
  else if leadsWith httpScheme l = true then urlTail httpScheme (l.drop 7)
  else none

/-- `re.findall` of the URL pattern (src/utils.py line 68): left-to-right,
non-overlapping; after a match the scan resumes past the match, otherwise it
advances one character.  Fuel-bounded structural recursion (`fuel = length`
suffices, each step consumes at least one character). -/
def findallUrlsF : Nat → List Char → List (List Char)
  | 0, _ => []
  | _ + 1, [] => []
  | fuel + 1, c :: rest =>
    match matchUrlAt (c :: rest) with
    | some (m, after) => m :: findallUrlsF fuel after
    | none => findallUrlsF fuel rest

/-- `extract_urls_from_text` (src/utils.py lines 67-71): the matches of the
URL pattern, deduplicated via `list(set(urls))`; the unordered
deduplicated result is modelled as a `Finset`. -/
def extract_urls_from_text (text : List Char) : Finset (List Char) :=
  (findallUrlsF text.length text).toFinset

/-- The text after the scheme separator of a well-formed match. -/
def stripScheme (u : List Char) : List Char :=
  if leadsWith httpsScheme u = true then u.drop 8
  else if leadsWith httpScheme u = true then u.drop 7
  else u

/-- The host portion of a URL: the scheme-stripped text up to the first
slash. -/
def hostOf (u : List Char) : List Char :=
  (stripScheme u).takeWhile (fun c => c ≠ '/')

theorem leadsWith_takeWhile (d : List Char) (p : Char → Bool) :
    ∀ l : List Char, leadsWith d (l.takeWhile p) = true → leadsWith d l = true := by
  induction d with
  | nil => intro l _; rfl
  | cons a as ih =>
    intro l h
    cases l with
    | nil => simp [List.takeWhile] at h; exact h
    | cons b bs =>
      rw [List.takeWhile_cons] at h
      split at h
      · rw [leadsWith, Bool.and_eq_true] at h ⊢
        exact ⟨h.1, ih bs h.2⟩
      · exact absurd h (by simp [leadsWith])

theorem urlTail_spec (scheme r m after : List Char)
    (h : urlTail scheme r = some (m, after)) :
    ∃ body, m = scheme ++ body ∧ body ≠ [] ∧
      (∀ ch ∈ body, urlStop ch = false) ∧
      leadsWith deny1 body = false ∧ leadsWith deny2 body = false := by
  rw [urlTail] at h
  split at h
  · exact absurd h (by simp)
  · rename_i hdeny
    rw [Bool.or_eq_true, not_or] at hdeny
    split at h
    · exact absurd h (by simp)
    · rename_i hbody
      simp only [Option.some.injEq, Prod.mk.injEq] at h
      refine ⟨r.takeWhile (fun c => !urlStop c), h.1.symm, hbody, ?_, ?_, ?_⟩
      · intro ch hch
        have := List.mem_takeWhile_imp hch
        simpa using this
      · by_contra hb
        exact hdeny.1 (leadsWith_takeWhile deny1 _ r (Bool.of_not_eq_false hb))
      · by_contra hb
        exact hdeny.2 (leadsWith_takeWhile deny2 _ r (Bool.of_not_eq_false hb))

theorem httpScheme_chars : ∀ ch ∈ httpScheme, urlStop ch = false := by decide

theorem httpsScheme_chars : ∀ ch ∈ httpsScheme, urlStop ch = false := by decide

theorem matchUrlAt_spec (l m after : List Char)
    (h : matchUrlAt l = some (m, after)) :
    (∃ body, (m = httpScheme ++ body ∨ m = httpsScheme ++ body) ∧ body ≠ [] ∧
      (∀ ch ∈ body, urlStop ch = false) ∧
      leadsWith deny1 body = false ∧ leadsWith deny2 body = false) ∧
    (∀ ch ∈ m, urlStop ch = false) := by
  rw [matchUrlAt] at h
  split at h
  · obtain ⟨body, hm, hne, hchars, hd1, hd2⟩ :=
      urlTail_spec httpsScheme (l.drop 8) m after h
    refine ⟨⟨body, Or.inr hm, hne, hchars, hd1, hd2⟩, ?_⟩
    intro ch hch
    rw [hm] at hch
    rcases List.mem_append.1 hch with hs | hb
    · exact httpsScheme_chars ch hs
    · exact hchars ch hb
  · split at h
    · obtain ⟨body, hm, hne, hchars, hd1, hd2⟩ :=
        urlTail_spec httpScheme (l.drop 7) m after h
      refine ⟨⟨body, Or.inl hm, hne, hchars, hd1, hd2⟩, ?_⟩
      intro ch hch
      rw [hm] at hch
      rcases List.mem_append.1 hch with hs | hb
      · exact httpScheme_chars ch hs
      · exact hchars ch hb
    · exact absurd h (by simp)

theorem findallUrlsF_mem (fuel : Nat) (l u : List Char)
    (hu : u ∈ findallUrlsF fuel l) :
    (∃ body, (u = httpScheme ++ body ∨ u = httpsScheme ++ body) ∧ body ≠ [] ∧
      (∀ ch ∈ body, urlStop ch = false) ∧
      leadsWith deny1 body = false ∧ leadsWith deny2 body = false) ∧
    (∀ ch ∈ u, urlStop ch = false) := by
  induction fuel generalizing l with
  | zero => exact absurd hu (by simp [findallUrlsF])
  | succ n ih =>
    cases l with
    | nil => exact absurd hu (by simp [findallUrlsF])
    | cons c rest =>
      rw [findallUrlsF] at hu
      revert hu
      split
      · rename_i m after hm
        intro hu
        rcases List.mem_cons.1 hu with hu | hu
        · exact hu ▸ matchUrlAt_spec (c :: rest) m after hm
        · exact ih after hu
      · intro hu
        exact ih rest hu

/-- C7 counterexample: a URL whose host falls strictly under a denylisted
suffix is still returned.  The lookahead only rejects text that begins with
a denylisted name right after `://`, so the subdomain host
`sub.example3.org` — which falls under the denylisted suffix
`example3.org` — passes, and the URL is extracted. -/
theorem extract_urls_subdomain_counterexample :
    "https://sub.example3.org/x".data ∈
      extract_urls_from_text "see https://sub.example3.org/x end".data ∧
    hostOf "https://sub.example3.org/x".data = "sub.example3.org".data ∧
    trailsWith "example3.org".data
      (hostOf "https://sub.example3.org/x".data) = true := by
  decide

/-- C7 amended: every extracted URL starts with `http://` or `https://`
followed by a nonempty body, contains no whitespace, comma, semicolon or
closing parenthesis, and its body does not BEGIN with a denylisted name
(exact-prefix exclusion immediately after `://`, not host-suffix
exclusion: subdomain hosts under a denylisted name are still returned);
the result is a deduplicated, unordered set.  A denylisted-host URL in the
same text as a clean URL is excluded while the clean one is returned. -/
theorem extract_urls_amended :
    (∀ t u, u ∈ extract_urls_from_text t →
      (∃ body, (u = httpScheme ++ body ∨ u = httpsScheme ++ body) ∧ body ≠ [] ∧
        (∀ ch ∈ body, urlStop ch = false) ∧
        leadsWith deny1 body = false ∧ leadsWith deny2 body = false) ∧
      (∀ ch ∈ u, urlStop ch = false)) ∧
    extract_urls_from_text
        "x https://example.example2.com/a https://ok.com/b y".data =
      {"https://ok.com/b".data} := by
  constructor
  · intro t u hu
    exact findallUrlsF_mem t.length t u (List.mem_toFinset.1 hu)
  · decide

theorem extract_urls_amended_witness :
    (∃ body,
      ("https://ok.com/b".data = httpScheme ++ body ∨
        "https://ok.com/b".data = httpsScheme ++ body) ∧ body ≠ [] ∧
      (∀ ch ∈ body, urlStop ch = false) ∧
      leadsWith deny1 body = false ∧ leadsWith deny2 body = false) ∧
    (∀ ch ∈ "https://ok.com/b".data, urlStop ch = false) :=
  extract_urls_amended.1 "x https://ok.com/b y".data "https://ok.com/b".data
    (by decide)

/-- A file seen by `os.walk`: its directory and its bare file name. -/
structure WalkFile where
  dir : List Char
  name : List Char
deriving DecidableEq

/-- One per-file step of `check_and_remove_links` (src/utils.py lines
262-277), parameterised by the processed-name set frozen at line 259:
a `.md`-suffixed file whose bare name is not in the frozen set is processed
(appended to the result list, its bare name appended to the ledger); every
other file is skipped. -/
def walkStep (processed : List (List Char))
    (st : Option (List Char) × List WalkFile) (f : WalkFile) :
    Option (List Char) × List WalkFile :=
  if trailsWith ".md".data f.name = true ∧ f.name ∉ processed then
    (update_checkpoint st.1 f.name, st.2 ++ [f])
  else st

/-- `check_and_remove_links` (src/utils.py lines 259-279) at the level of
checkpoint bookkeeping: the processed-name set is read once at the start
and never updated in memory during the walk.  Returns the final ledger and
the processed files in traversal order. -/
def check_and_remove_links (files : List WalkFile) (s : Option (List Char)) :
    Option (List Char) × List WalkFile :=
  files.foldl (walkStep (read_checkpoint s)) (s, [])

theorem walk_foldl_wf_mono (processed : List (List Char))
    (files : List WalkFile) (st : Option (List Char) × List WalkFile)
    (hwf : wfLedger st.1) :
    wfLedger (files.foldl (walkStep processed) st).1 ∧
    (∀ x, x ∈ read_checkpoint st.1 →
      x ∈ read_checkpoint (files.foldl (walkStep processed) st).1) := by
  induction files generalizing st with
  | nil => exact ⟨hwf, fun x hx => hx⟩
  | cons g gs ih =>
    rw [List.foldl_cons]
    rcases hstep : walkStep processed st g with ⟨t, pl⟩
    rw [walkStep] at hstep
    split at hstep
    · obtain ⟨ht, _⟩ := Prod.mk.injEq .. ▸ hstep
      have hwt : wfLedger t := by
        rw [← ht]; exact wfLedger_update st.1 g.name
      obtain ⟨h1, h2⟩ := ih (t, pl) hwt
      refine ⟨h1, fun x hx => h2 x ?_⟩
      rw [← ht]
      exact read_update_mono st.1 g.name x hwf hx
    · obtain ⟨ht, _⟩ := Prod.mk.injEq .. ▸ hstep
      obtain ⟨h1, h2⟩ := ih (t, pl) (ht ▸ hwf)
      exact ⟨h1, fun x hx => h2 x (ht ▸ hx)⟩

theorem walk_foldl_records (processed : List (List Char))
    (files : List WalkFile) (st : Option (List Char) × List WalkFile)
    (hwf : wfLedger st.1) (hnl : ∀ f ∈ files, noLineBreak f.name) :
    ∀ f ∈ files, trailsWith ".md".data f.name = true →
      f.name ∈ read_checkpoint (files.foldl (walkStep processed) st).1 ∨
      f.name ∈ processed := by
  induction files generalizing st with
  | nil => intro f hf; exact absurd hf (List.not_mem_nil f)
  | cons g gs ih =>
    intro f hf hmd
    rw [List.foldl_cons]
    by_cases hcond : trailsWith ".md".data g.name = true ∧ g.name ∉ processed
    · have hstep : walkStep processed st g =
          (update_checkpoint st.1 g.name, st.2 ++ [g]) := by
        rw [walkStep, if_pos hcond]
      rw [hstep]
      have hwt : wfLedger (update_checkpoint st.1 g.name) :=
        wfLedger_update st.1 g.name
      rcases List.mem_cons.1 hf with hfg | hfgs
      · subst hfg
        left
        have hmem : f.name ∈ read_checkpoint (update_checkpoint st.1 f.name) := by
          rw [read_update st.1 f.name hwf (hnl f (List.mem_cons_self f gs))]
          exact List.mem_append_right _ (List.mem_singleton_self f.name)
        exact (walk_foldl_wf_mono processed gs
          (update_checkpoint st.1 f.name, st.2 ++ [f]) hwt).2 f.name hmem
      · exact ih (update_checkpoint st.1 g.name, st.2 ++ [g]) hwt
          (fun x hx => hnl x (List.mem_cons_of_mem g hx)) f hfgs hmd
    · have hstep : walkStep processed st g = st := by
        rw [walkStep, if_neg hcond]
      rw [hstep]
      rcases List.mem_cons.1 hf with hfg | hfgs
      · subst hfg
        right
        rcases not_and_or.1 hcond with hc | hc
        · exact absurd hmd hc
        · exact not_not.1 hc
      · exact ih st hwf (fun x hx => hnl x (List.mem_cons_of_mem g hx)) f hfgs hmd

theorem walk_foldl_skips (processed : List (List Char))
    (files : List WalkFile) (st : Option (List Char) × List WalkFile)
    (hall : ∀ f ∈ files,
      ¬(trailsWith ".md".data f.name = true ∧ f.name ∉ processed)) :
    files.foldl (walkStep processed) st = st := by
  induction files generalizing st with
  | nil => rfl
  | cons g gs ih =>
    rw [List.foldl_cons, walkStep, if_neg (hall g (List.mem_cons_self g gs))]
    exact ih st (fun f hf => hall f (List.mem_cons_of_mem g hf))

theorem walk_foldl_no_checkpointed (processed : List (List Char))
    (files : List WalkFile) (st : Option (List Char) × List WalkFile)
    (f : WalkFile) (hf : f.name ∈ processed) (hst : f ∉ st.2) :
    f ∉ (files.foldl (walkStep processed) st).2 := by
  induction files generalizing st with
  | nil => exact hst
  | cons g gs ih =>
    rw [List.foldl_cons]
    by_cases hcond : trailsWith ".md".data g.name = true ∧ g.name ∉ processed
    · have hstep : walkStep processed st g =
          (update_checkpoint st.1 g.name, st.2 ++ [g]) := by
        rw [walkStep, if_pos hcond]
      rw [hstep]
      refine ih (update_checkpoint st.1 g.name, st.2 ++ [g]) ?_
      intro hmem
      rcases List.mem_append.1 hmem with hm | hm
      · exact hst hm
      · rw [List.mem_singleton.1 hm] at hf
        exact hcond.2 hf
    · have hstep : walkStep processed st g = st := by
        rw [walkStep, if_neg hcond]
      rw [hstep]
      exact ih st hst

/-- C3: `check_and_remove_links` skips every file whose bare name is in the
checkpoint set loaded at the start of the run, and a second run over the
same (unchanged) file list with the ledger produced by a completed first
run processes zero files. -/
theorem check_and_remove_links_idempotent (files : List WalkFile)
    (s : Option (List Char)) (hs : wfLedger s)
    (hnl : ∀ f ∈ files, noLineBreak f.name) :
    (∀ f ∈ files, f.name ∈ read_checkpoint s →
      f ∉ (check_and_remove_links files s).2) ∧
    (check_and_remove_links files (check_and_remove_links files s).1).2 = [] := by
  constructor
  · intro f _ hmem
    exact walk_foldl_no_checkpointed (read_checkpoint s) files (s, []) f hmem
      (List.not_mem_nil f)
  · have hwf1 : wfLedger (check_and_remove_links files s).1 :=
      (walk_foldl_wf_mono (read_checkpoint s) files (s, []) hs).1
    have hdone : ∀ f ∈ files, trailsWith ".md".data f.name = true →
        f.name ∈ read_checkpoint (check_and_remove_links files s).1 := by
      intro f hf hmd
      rcases walk_foldl_records (read_checkpoint s) files (s, []) hs hnl f hf hmd
        with h | h
      · exact h
      · exact (walk_foldl_wf_mono (read_checkpoint s) files (s, []) hs).2
          f.name h
    rw [check_and_remove_links,
        walk_foldl_skips
          (read_checkpoint (check_and_remove_links files s).1) files
          ((check_and_remove_links files s).1, []) ?_]
    intro f hf hcond
    exact hcond.2 (hdone f hf hcond.1)

theorem check_and_remove_links_idempotent_witness :
    (check_and_remove_links
      [⟨"blog".data, "a.md".data⟩, ⟨"blog".data, "b.txt".data⟩]
      (check_and_remove_links
        [⟨"blog".data, "a.md".data⟩, ⟨"blog".data, "b.txt".data⟩] none).1).2 =
      [] :=
  (check_and_remove_links_idempotent
    [⟨"blog".data, "a.md".data⟩, ⟨"blog".data, "b.txt".data⟩] none trivial
    (by decide)).2

/-- C10: the processed-name set is frozen at the start of the run and files
are keyed by bare name, so two distinct files in different directories that
share a bare `.md` name, not checkpointed at the start, are both processed
in one run and the shared name is appended to the ledger once per file —
duplicate lines. -/
theorem check_and_remove_links_shared_name (d1 d2 n : List Char)
    (s : Option (List Char)) (hs : wfLedger s) (hn : noLineBreak n)
    (hmd : trailsWith ".md".data n = true) (hns : n ∉ read_checkpoint s)
    (_hdir : d1 ≠ d2) :
    (check_and_remove_links [⟨d1, n⟩, ⟨d2, n⟩] s).2 = [⟨d1, n⟩, ⟨d2, n⟩] ∧
    read_checkpoint (check_and_remove_links [⟨d1, n⟩, ⟨d2, n⟩] s).1 =
      read_checkpoint s ++ [n, n] := by
  have hrun : check_and_remove_links [⟨d1, n⟩, ⟨d2, n⟩] s =
      (update_checkpoint (update_checkpoint s n) n, [⟨d1, n⟩, ⟨d2, n⟩]) := by
    rw [check_and_remove_links, List.foldl_cons, walkStep, if_pos ⟨hmd, hns⟩,
        List.foldl_cons, walkStep, if_pos ⟨hmd, hns⟩, List.foldl_nil]
    simp
  rw [hrun]
  refine ⟨rfl, ?_⟩
  rw [read_update (update_checkpoint s n) n (wfLedger_update s n) hn,
      read_update s n hs hn, List.append_assoc]
  simp

theorem check_and_remove_links_shared_name_witness :
    (check_and_remove_links
      [⟨"blog/x".data, "a.md".data⟩, ⟨"blog/y".data, "a.md".data⟩] none).2 =
      [⟨"blog/x".data, "a.md".data⟩, ⟨"blog/y".data, "a.md".data⟩] ∧
    read_checkpoint
      (check_and_remove_links
        [⟨"blog/x".data, "a.md".data⟩, ⟨"blog/y".data, "a.md".data⟩] none).1 =
      read_checkpoint none ++ ["a.md".data, "a.md".data] :=
  check_and_remove_links_shared_name "blog/x".data "blog/y".data "a.md".data
    none trivial (by decide) (by decide) (by decide) (by decide)

/-- One per-file step of `find_failing_links_and_update_csv`
(src/utils.py lines 203-223): accumulate the file's failing-link records,
bump the file counter, and on every `batch_size`-th file flush the
accumulator (even an empty one) and reset it.  State:
(accumulator, file counter, flushes so far). -/
def batchStep {α : Type} (batch_size : Nat)
    (st : List α × Nat × List (List α)) (recs : List α) :
    List α × Nat × List (List α) :=
  if (st.2.1 + 1) % batch_size = 0 then
    ([], st.2.1 + 1, st.2.2 ++ [st.1 ++ recs])
  else
    (st.1 ++ recs, st.2.1 + 1, st.2.2)

/-- `find_failing_links_and_update_csv` (src/utils.py lines 199-230) at the
level of report flushing, the per-file failing-link records given as input:
walk the files accumulating records, flush every `batch_size` files, and
flush once more at the end only when the accumulator is nonempty
(`if failing_links:` at line 226).  Returns the flushed batches in order. -/
def find_failing_links_and_update_csv {α : Type}
    (perFile : List (List α)) (batch_size : Nat) : List (List α) :=
  ((perFile.foldl (batchStep batch_size) ([], 0, [])).2.2) ++
    (match (perFile.foldl (batchStep batch_size) ([], 0, [])).1 with
     | [] => []
     | a :: rest => [a :: rest])

theorem batch_foldl_flatten {α : Type} (batch_size : Nat)
    (files : List (List α)) (st : List α × Nat × List (List α)) :
    ((files.foldl (batchStep batch_size) st).2.2).flatten ++
      (files.foldl (batchStep batch_size) st).1 =
    st.2.2.flatten ++ st.1 ++ files.flatten := by
  induction files generalizing st with
  | nil => simp
  | cons recs rest ih =>
    rw [List.foldl_cons, batchStep]
    split
    · rw [ih ([], st.2.1 + 1, st.2.2 ++ [st.1 ++ recs])]
      simp
    · rw [ih (st.1 ++ recs, st.2.1 + 1, st.2.2)]
      simp

set_option maxRecDepth 20000 in
/-- C9 counterexample: when the files after the last full batch contribute
no records, there is no final flush.  250 files that all produce zero
failing-link records with batch size 100 yield exactly the two periodic
flushes (both empty) — two flushes, not three, and no flush covers the
remaining 50 files. -/
theorem batch_flush_no_final_counterexample :
    find_failing_links_and_update_csv (List.replicate 250 ([] : List Nat)) 100 =
      [[], []] := by
  decide

set_option maxRecDepth 8000 in
/-- C9 amended: records are flushed every `batch_size` files (the periodic
flush fires even when empty) and once more at the end only when unflushed
records remain; when the trailing files contribute no records the final
flush is skipped — losing nothing.  With 250 files of one record each and
batch size 100 the flushes are after file 100, after file 200, and a final
flush covering the remaining 50; and in general the concatenation of all
flushes is exactly the concatenation of all records (no accumulated record
is lost). -/
theorem batch_flush_amended :
    find_failing_links_and_update_csv ((List.range 250).map fun i => [i]) 100 =
      [List.range 100, (List.range 100).map (fun i => i + 100),
        (List.range 50).map (fun i => i + 200)] ∧
    (∀ (α : Type) (perFile : List (List α)) (batch_size : Nat),
      0 < batch_size →
      (find_failing_links_and_update_csv perFile batch_size).flatten =
        perFile.flatten) := by
  constructor
  · decide
  · intro α perFile batch_size _
    have hkey := batch_foldl_flatten batch_size perFile ([], 0, [])
    rw [find_failing_links_and_update_csv]
    cases hacc : (perFile.foldl (batchStep batch_size) ([], 0, [])).1 with
    | nil =>
      rw [hacc] at hkey
      simpa using hkey
    | cons a rest =>
      rw [hacc] at hkey
      rw [List.flatten_append]
      simpa using hkey

theorem batch_flush_amended_witness :
    (find_failing_links_and_update_csv [[1, 2], [], [3]] 2).flatten =
      ([[1, 2], [], [3]] : List (List Nat)).flatten :=
  batch_flush_amended.2 Nat [[1, 2], [], [3]] 2 (by decide)
